import Mathlib

/-!
Verification of the `PromiseCache` component of the angular-promise-cache
repository (second, LRU-capable version, `src/PromiseCache.js`).

The JavaScript code is shallowly embedded as pure Lean functions over an
explicit state type:

* Promises are opaque: a promise is identified by a `Nat` id (reference
  identity).  Settlement is external to the cache; the rejection
  continuation registered by `addEntry` is the `removeIfEntry` transition,
  which callers of the model apply when a promise rejects.
* The JavaScript wall clock (`new Date().getTime()`) is an explicit `now : Int`
  argument to every operation that reads it.
* The JS object used as the cache map is an insertion-ordered association
  list with unique string keys (JS objects preserve the original position
  of an overwritten string key and iterate in insertion order).
* `new CacheEntry(...)` allocation identity is modelled by a per-cache
  allocation counter `nextId`; every constructed entry receives a fresh
  `entryId`, so `===` on entries is equality of `entryId` (and, for entries
  produced by the model, plain structural equality).
* `setInterval` handles are modelled by an `Option Nat` field; starting the
  interval stores `some 1`, stopping stores `none`.

`PromiseCache.js` obtains the `CacheEntry` and `LruList` classes by
dependency injection; their source files are not part of the given sources
(only the superseded single-file first version is).  Those two leaf classes
are therefore modelled from the specification (§4.1, §4.2) and are marked
`Modelled from the spec:` in their doc comments.  Everything else is
translated directly from `src/PromiseCache.js`.
-/

/-- Errors thrown synchronously by `get` (spec §7: `InvalidSetterError` for a
non-callable setter, `InvalidSetterResultError` for a setter result that is
not then-able). -/
inductive CacheError where
  | invalidSetter
  | invalidSetterResult
deriving DecidableEq, Repr

/-- The value returned by invoking a `setter`: either an object passing the
duck-type check `promise && typeof promise.then === 'function'` (identified
by the promise id it wraps), or anything that fails that check. -/
inductive SetterResult where
  | thenable (promiseId : Nat)
  | nonThenable
deriving DecidableEq, Repr

/-- The `setter` argument of `get`: either not a function (fails the
`typeof setter !== 'function'` check) or a function whose single invocation
returns the given `SetterResult`. -/
inductive SetterArg where
  | notCallable
  | callable (result : SetterResult)
deriving DecidableEq, Repr

/-- Modelled from the spec (§4.1): the `CacheEntry` leaf class
(`PromiseCache.CacheEntry`), whose source file is not among the given
sources.  `Construct(key, value)` records `insertedAt = now`; the class is
pure data plus the `isExpired` predicate.  `entryId` models JavaScript
object identity (each `new CacheEntry` gets a fresh id from the cache's
allocation counter). -/
structure CacheEntry where
  key : String
  promiseId : Nat
  entryTime : Int
  entryId : Nat
deriving DecidableEq, Repr

/-- `getKey()` of a cache entry. -/
def CacheEntry.getKey (e : CacheEntry) : String := e.key

/-- `getPromise()` of a cache entry (the stored asynchronous value,
identified by its promise id). -/
def CacheEntry.getPromise (e : CacheEntry) : Nat := e.promiseId

/-- Modelled from the spec (§4.1): `isExpired(maxAge)` is `true` iff
`maxAge` is non-null and `now() > insertedAt + maxAge`; `false` when
`maxAge` is null (never expires). -/
def CacheEntry.isExpired (e : CacheEntry) (maxAge : Option Int) (now : Int) : Bool :=
  match maxAge with
  | none => false
  | some a => now > e.entryTime + a

/-- Modelled from the spec (§4.2): the `LruList` class
(`PromiseCache.LruList`), whose source file is not among the given sources.
The intrusive doubly linked list is modelled as the sequence of its nodes,
most-recently-used first, least-recently-used last. -/
structure LruList where
  toList : List CacheEntry
deriving DecidableEq, Repr

/-- Modelled from the spec (§4.2): `pushMru(entry)` inserts `entry` as the
new most-recently-used node (precondition per spec: not already linked). -/
def LruList.pushMru (l : LruList) (e : CacheEntry) : LruList :=
  ⟨e :: l.toList⟩

/-- Modelled from the spec (§4.2): `remove(entry)` unlinks `entry` (by
object identity) from wherever it sits; no-op if not linked. -/
def LruList.remove (l : LruList) (e : CacheEntry) : LruList :=
  ⟨l.toList.filter (fun x => x.entryId != e.entryId)⟩

/-- Modelled from the spec (§4.2): `touch(entry)` moves an already-linked
`entry` to the most-recently-used position (realized as unlink followed by
insert-as-MRU). -/
def LruList.touch (l : LruList) (e : CacheEntry) : LruList :=
  (l.remove e).pushMru e

/-- Modelled from the spec (§4.2): `getLru()` returns the current
least-recently-used node without removing it; absent if the list is
empty. -/
def LruList.getLru (l : LruList) : Option CacheEntry :=
  l.toList.getLast?

/-- Lookup in the JS-object cache map (`this.cache[ key ]`). -/
def assocGet (m : List (String × CacheEntry)) (k : String) : Option CacheEntry :=
  match m with
  | [] => none
  | (k', e) :: rest => if k' = k then some e else assocGet rest k

/-- Write to the JS-object cache map (`this.cache[ key ] = entry`): an
existing string key keeps its original position, a new key is appended in
insertion order. -/
def assocSet (m : List (String × CacheEntry)) (k : String) (e : CacheEntry) :
    List (String × CacheEntry) :=
  match m with
  | [] => [(k, e)]
  | (k', e') :: rest => if k' = k then (k, e) :: rest else (k', e') :: assocSet rest k e

/-- Deletion from the JS-object cache map (`delete this.cache[ key ]`). -/
def assocDelete (m : List (String × CacheEntry)) (k : String) :
    List (String × CacheEntry) :=
  match m with
  | [] => []
  | (k', e') :: rest => if k' = k then rest else (k', e') :: assocDelete rest k

/-- The `PromiseCache` instance state: the three configuration options and
the four private properties of `PromiseCache.js`, plus the allocation
counter `nextId` modelling `new CacheEntry` object identity. -/
structure PromiseCache where
  maxSize : Option Int := none
  maxAge : Option Int := none
  pruneInterval : Option Int := some 60000
  cache : Option (List (String × CacheEntry)) := none
  size : Int := 0
  pruningIntervalId : Option Nat := none
  lruList : Option LruList := none
  nextId : Nat := 0
deriving DecidableEq, Repr

/-- The entries of the cache map, in insertion order (`[]` when the map is
the JS `null`). -/
def PromiseCache.cacheList (s : PromiseCache) : List (String × CacheEntry) :=
  s.cache.getD []

/-- The nodes currently linked in the LRU list, MRU first (`[]` when the
list is the JS `null`). -/
def PromiseCache.lruEntries (s : PromiseCache) : List CacheEntry :=
  (s.lruList.map LruList.toList).getD []

/-- `startPruningInterval()`: no-op if already running, if `pruneInterval`
is null, or if `maxAge` is null; otherwise records a running interval
(`setInterval` handle modelled as `some 1`). -/
def PromiseCache.startPruningInterval (s : PromiseCache) : PromiseCache :=
  if s.pruningIntervalId.isSome then s
  else match s.pruneInterval with
    | none => s
    | some _ =>
      match s.maxAge with
      | none => s
      | some _ => { s with pruningIntervalId := some 1 }

/-- `stopPruningInterval()`: clears the interval handle if one is set. -/
def PromiseCache.stopPruningInterval (s : PromiseCache) : PromiseCache :=
  if s.pruningIntervalId.isSome then { s with pruningIntervalId := none } else s

/-- `clear()`: nulls out the cache map and LRU list, resets `size` to 0,
stops the pruning interval. -/
def PromiseCache.clear (s : PromiseCache) : PromiseCache :=
  PromiseCache.stopPruningInterval { s with cache := none, lruList := none, size := 0 }

/-- `destroy()`: stops the pruning interval and nulls out the cache map
(and nothing else — `size` and `lruList` are left as they are). -/
def PromiseCache.destroy (s : PromiseCache) : PromiseCache :=
  { s.stopPruningInterval with cache := none }

/-- `removeEntry( cacheEntry )`: if `size === 1` delegate to `clear()`;
otherwise decrement `size`, unlink the entry from the LRU list if one is
active, and delete the entry's key from the map.  (In the `else` branch the
source dereferences `this.cache`; when the map is the JS `null` this would
throw a `TypeError`.  That branch is modelled as leaving the absent map
absent; it is unreachable from the call sites, which all guard on a
non-null map — see `remove` and `prune`.) -/
def PromiseCache.removeEntry (s : PromiseCache) (ce : CacheEntry) : PromiseCache :=
  if s.size = 1 then s.clear
  else
    { s with
      size := s.size - 1,
      lruList := s.lruList.map (fun l => l.remove ce),
      cache := s.cache.map (fun m => assocDelete m ce.getKey) }

/-- `remove( key )`: no-op if the map was never created or holds no entry
for `key`; otherwise removes the entry stored under `key` via
`removeEntry`. -/
def PromiseCache.remove (s : PromiseCache) (k : String) : PromiseCache :=
  match s.cache with
  | none => s
  | some m =>
    match assocGet m k with
    | some ce => s.removeEntry ce
    | none => s

/-- `removeIfEntry( key, cacheEntry )`: the rejection continuation
registered by `addEntry`; removes `key` only if the entry currently stored
under `key` is (reference-)identical to `cacheEntry`. -/
def PromiseCache.removeIfEntry (s : PromiseCache) (k : String) (ce : CacheEntry) :
    PromiseCache :=
  match s.cache with
  | none => s
  | some m => if assocGet m k = some ce then s.remove k else s

/-- `has( key )`: true iff the map exists, holds an entry for `key`, and
that entry is not expired. -/
def PromiseCache.has (s : PromiseCache) (now : Int) (k : String) : Bool :=
  match s.cache with
  | none => false
  | some m =>
    match assocGet m k with
    | none => false
    | some ce => !(ce.isExpired s.maxAge now)

/-- The outcome of a `get` call: the returned promise (or the error thrown),
the post-call instance state (mutations made before a throw persist), and
whether the `setter` was invoked. -/
structure GetOutcome where
  result : Except CacheError Nat
  state : PromiseCache
  setterInvoked : Bool
deriving Repr

instance : DecidableEq (Except CacheError Nat) := fun a b =>
  match a, b with
  | .ok x, .ok y => if h : x = y then isTrue (by rw [h]) else isFalse (by simp [h])
  | .ok _, .error _ => isFalse (by simp)
  | .error _, .ok _ => isFalse (by simp)
  | .error x, .error y => if h : x = y then isTrue (by rw [h]) else isFalse (by simp [h])

instance : DecidableEq GetOutcome := fun a b => by
  cases a; cases b
  exact decidable_of_iff _ (by simp [GetOutcome.mk.injEq] at *; exact Iff.rfl)

/-- `addEntry( key, setter )`, called from `get` on a miss, after the lazy
initializations and with the setter already known to be callable.  The
setter has been invoked (its result is `res`).  If the result fails the
then-duck-type check, throws `InvalidSetterResultError` with no further
mutation.  Otherwise stores a fresh `CacheEntry` under `key` (overwriting
any prior entry in the map slot), pushes it as MRU if an LRU list is
active, increments `size`, starts the pruning interval if configured, and,
if `maxSize` is exceeded, removes the key of the least-recently-used node.
The rejection continuation `removeIfEntry key entry` that the source
registers on the promise is applied externally by the model when that
promise rejects. -/
def PromiseCache.addEntry (s : PromiseCache) (now : Int) (key : String)
    (res : SetterResult) : GetOutcome :=
  match res with
  | .nonThenable => ⟨.error .invalidSetterResult, s, true⟩
  | .thenable pid =>
    let ce : CacheEntry := ⟨key, pid, now, s.nextId⟩
    let s1 : PromiseCache :=
      { s with cache := some (assocSet s.cacheList key ce), nextId := s.nextId + 1 }
    let s2 : PromiseCache :=
      match s1.lruList with
      | some l => { s1 with lruList := some (l.pushMru ce) }
      | none => s1
    let s3 : PromiseCache := { s2 with size := s2.size + 1 }
    let s4 : PromiseCache := s3.startPruningInterval
    let s5 : PromiseCache :=
      match s4.maxSize with
      | none => s4
      | some n =>
        if s4.size > n then
          match s4.lruList with
          | some l =>
            match l.getLru with
            | some lruE => s4.remove lruE.getKey
            | none => s4  -- unreachable: the list just received a push
          | none => s4    -- unreachable: `get` created the list when maxSize is set
        else s4
    ⟨.ok pid, s5, true⟩

/-- The statement `if( !this.cache ) this.cache = {};` of `get`. -/
def PromiseCache.lazyInitCache (s : PromiseCache) : PromiseCache :=
  if s.cache.isSome then s else { s with cache := some [] }

/-- The statement `if( !this.lruList && this.maxSize !== null ) this.lruList
= new LruList();` of `get`. -/
def PromiseCache.lazyInitLru (s : PromiseCache) : PromiseCache :=
  if s.lruList.isNone && s.maxSize.isSome then { s with lruList := some ⟨[]⟩ } else s

/-- `get( key, setter )`: throws if `setter` is not a function; lazily
creates the cache map, and the LRU list when `maxSize` is configured; on an
unexpired hit returns the stored promise and touches the LRU node; on a
miss (or expired entry) delegates to `addEntry`. -/
def PromiseCache.get (s : PromiseCache) (now : Int) (key : String)
    (setter : SetterArg) : GetOutcome :=
  match setter with
  | .notCallable => ⟨.error .invalidSetter, s, false⟩
  | .callable res =>
    let s2 : PromiseCache := s.lazyInitCache.lazyInitLru
    match assocGet s2.cacheList key with
    | some ce =>
      if ce.isExpired s2.maxAge now then s2.addEntry now key res
      else
        let s3 : PromiseCache :=
          match s2.lruList with
          | some l => { s2 with lruList := some (l.touch ce) }
          | none => s2
        ⟨.ok ce.getPromise, s3, false⟩
    | none => s2.addEntry now key res

/-- The body of `prune`'s `for( var key in cache )` loop.  `keys` is the
sequence of keys of the map object captured in the local `cache` variable
at loop start (JS for-in order = insertion order); `captured` is the
current contents of that captured object (aliasing `this.cache` until a
`clear()` detaches them); `s` is the live instance state.  An expired entry
is removed through the `removeEntry` path.  (After a mid-loop `clear()` the
source would dereference the now-null `this.cache` and throw a `TypeError`
on the next expired entry; modelled as leaving the absent map absent, the
situation being unreachable: it needs `size` strictly below the number of
entries of the map.) -/
def PromiseCache.pruneLoop (maxAge : Int) (now : Int) :
    List String → PromiseCache → List (String × CacheEntry) → PromiseCache
  | [], s, _ => s
  | k :: rest, s, captured =>
    match assocGet captured k with
    | none => PromiseCache.pruneLoop maxAge now rest s captured
    | some ce =>
      if ce.isExpired (some maxAge) now then
        PromiseCache.pruneLoop maxAge now rest (s.removeEntry ce)
          -- while `removeEntry` takes the `delete` branch, the captured object
          -- aliases the live map, so the delete hits both; in the `clear()`
          -- branch the live map is detached (nulled) and the captured object
          -- keeps its remaining keys.
          (if s.size = 1 then captured else assocDelete captured ce.getKey)
      else PromiseCache.pruneLoop maxAge now rest s captured

/-- `prune()`: no-op if the map was never created or `maxAge` is null;
otherwise walks all entries and removes the expired ones via the
`removeEntry` path. -/
def PromiseCache.prune (s : PromiseCache) (now : Int) : PromiseCache :=
  match s.cache with
  | none => s
  | some m =>
    match s.maxAge with
    | none => s
    | some a => PromiseCache.pruneLoop a now (m.map Prod.fst) s m

/-- `getSize()`: prunes, then returns the `size` property. -/
def PromiseCache.getSize (s : PromiseCache) (now : Int) : Int :=
  (s.prune now).size

/-- A cache configured with `maxAge = 100` (other options at their
defaults). -/
def exCfg : PromiseCache := { maxAge := some 100 }

/-- `exCfg` after `get('a', setter)` at time 0, the setter returning
promise 1. -/
def exS1 : PromiseCache := (exCfg.get 0 "a" (.callable (.thenable 1))).state

/-- `exS1` after a second `get('a', setter2)` at time 200: the entry from
time 0 is expired, so the expired entry is overwritten by a fresh one. -/
def exS2 : PromiseCache := (exS1.get 200 "a" (.callable (.thenable 2))).state

/-- A cache configured with `maxAge = 100` and `maxSize = 5`, so that an
LRU list is active. -/
def lruCfg : PromiseCache := { maxAge := some 100, maxSize := some 5 }

/-- `lruCfg` after `get('a', ...)` at time 0 and again at time 200: the
second call overwrites the expired entry while the LRU list is active. -/
def lruS2 : PromiseCache :=
  ((lruCfg.get 0 "a" (.callable (.thenable 1))).state.get 200 "a"
    (.callable (.thenable 2))).state

/-- A cache configured with `maxSize = 1` (no `maxAge`). -/
def evCfg : PromiseCache := { maxSize := some 1 }

/-- `evCfg` after inserting key `a`, hitting key `a` via `get`, and then
inserting key `b` (the (N+1)-th distinct key for `maxSize = N = 1`). -/
def evS3 : PromiseCache :=
  (((evCfg.get 0 "a" (.callable (.thenable 0))).state.get 0 "a"
      (.callable (.thenable 9))).state.get 0 "b" (.callable (.thenable 0))).state

/-- A fresh cache configured with `maxSize = N` only. -/
def lruInit (N : Int) : PromiseCache := { maxSize := some N }

/-- Issue one inserting `get` (time 0, setter returning promise 0) per key,
in order. -/
def insertAll (s : PromiseCache) : List String → PromiseCache
  | [] => s
  | k :: rest => insertAll ((s.get 0 k (.callable (.thenable 0))).state) rest

/-- The association list produced by inserting the given keys in order into
an empty cache at time 0 with promise 0, allocation ids starting at `i`. -/
def mkEntries : List String → Nat → List (String × CacheEntry)
  | [], _ => []
  | k :: ks, i => (k, ⟨k, 0, 0, i⟩) :: mkEntries ks (i + 1)

/-- The cache state midway through a sequence of distinct-key insertions
into a `maxSize = N`, `maxAge = null` cache: map contents `m` in insertion
order, `size` equal to the map cardinality, LRU list holding the map's
entries most-recent first, no pruning interval (none is started when
`maxAge` is null). -/
def midState (N : Int) (m : List (String × CacheEntry)) (nid : Nat) : PromiseCache :=
  { maxSize := some N, maxAge := none, pruneInterval := some 60000,
    cache := some m, size := (m.length : Int), pruningIntervalId := none,
    lruList := some ⟨(m.map Prod.snd).reverse⟩, nextId := nid }

/-- A cache configured with `maxAge = 100` and `maxSize = 1`. -/
def sfCfg : PromiseCache := { maxAge := some 100, maxSize := some 1 }

/-- `sfCfg` after `get('a', ...)` at time 0 and again at time 200: the
second call overwrites the expired entry and the resulting eviction leaves
the old entry's node orphaned in the LRU list while the map is empty — a
state reachable purely through public `get` calls. -/
def sfOrphan : PromiseCache :=
  ((sfCfg.get 0 "a" (.callable (.thenable 1))).state.get 200 "a"
    (.callable (.thenable 2))).state

/-! ## Supporting lemmas -/

theorem assocGet_assocSet_self (m : List (String × CacheEntry)) (k : String)
    (e : CacheEntry) : assocGet (assocSet m k e) k = some e := by
  induction m with
  | nil => simp [assocSet, assocGet]
  | cons p rest ih =>
    obtain ⟨k', e'⟩ := p
    by_cases h : k' = k <;> simp [assocSet, assocGet, h, ih]

theorem assocGet_assocSet_ne (m : List (String × CacheEntry)) (k k2 : String)
    (e : CacheEntry) (h : k ≠ k2) :
    assocGet (assocSet m k e) k2 = assocGet m k2 := by
  induction m with
  | nil => simp [assocSet, assocGet, h]
  | cons p rest ih =>
    obtain ⟨k', e'⟩ := p
    by_cases h' : k' = k
    · subst h'
      simp [assocSet, assocGet, h]
    · simp [assocSet, assocGet, h', ih]

theorem assocGet_assocDelete_ne (m : List (String × CacheEntry)) (k k2 : String)
    (h : k ≠ k2) : assocGet (assocDelete m k) k2 = assocGet m k2 := by
  induction m with
  | nil => simp [assocDelete, assocGet]
  | cons p rest ih =>
    obtain ⟨k', e'⟩ := p
    by_cases h' : k' = k
    · subst h'
      simp [assocDelete, assocGet, h, ih]
    · simp [assocDelete, assocGet, h', ih]

theorem assocGet_mem (m : List (String × CacheEntry)) (k : String) (e : CacheEntry)
    (h : assocGet m k = some e) : (k, e) ∈ m := by
  induction m with
  | nil => simp [assocGet] at h
  | cons p rest ih =>
    obtain ⟨k', e'⟩ := p
    by_cases h' : k' = k
    · subst h'
      simp [assocGet] at h
      simp [h]
    · simp [assocGet, h'] at h
      simp [ih h]

theorem length_assocSet_of_none (m : List (String × CacheEntry)) (k : String)
    (e : CacheEntry) (h : assocGet m k = none) :
    (assocSet m k e).length = m.length + 1 := by
  induction m with
  | nil => simp [assocSet]
  | cons p rest ih =>
    obtain ⟨k', e'⟩ := p
    by_cases h' : k' = k
    · simp [assocGet, h'] at h
    · simp [assocGet, h'] at h
      simp [assocSet, h', ih h]

/-- The two lazy-initialization statements at the head of `get` leave every
observable component of the state unchanged apart from materializing an
absent map as an empty one (and an absent LRU list as an empty one when
`maxSize` is configured). -/
theorem lazyInit_spec (s : PromiseCache) :
    (s.lazyInitCache.lazyInitLru).cache = some s.cacheList ∧
    (s.lazyInitCache.lazyInitLru).maxAge = s.maxAge ∧
    (s.lazyInitCache.lazyInitLru).maxSize = s.maxSize ∧
    (s.lazyInitCache.lazyInitLru).size = s.size ∧
    (s.lazyInitCache.lazyInitLru).nextId = s.nextId ∧
    (s.lazyInitCache.lazyInitLru).lruEntries = s.lruEntries ∧
    (s.maxSize.isSome = true → (s.lazyInitCache.lazyInitLru).lruList.isSome = true) := by
  unfold PromiseCache.lazyInitCache PromiseCache.lazyInitLru
  cases hc : s.cache <;> cases hl : s.lruList <;> cases hms : s.maxSize <;>
    simp [hc, hl, hms, PromiseCache.cacheList, PromiseCache.lruEntries]

/-- `startPruningInterval` can change only the interval handle. -/
theorem startPruning_cache (s : PromiseCache) :
    s.startPruningInterval.cache = s.cache := by
  unfold PromiseCache.startPruningInterval
  by_cases h : s.pruningIntervalId.isSome <;> cases hpi : s.pruneInterval <;>
    cases hma : s.maxAge <;> simp [h, hpi, hma]

/-- `startPruningInterval` leaves `maxAge` unchanged. -/
theorem startPruning_maxAge (s : PromiseCache) :
    s.startPruningInterval.maxAge = s.maxAge := by
  unfold PromiseCache.startPruningInterval
  by_cases h : s.pruningIntervalId.isSome <;> cases hpi : s.pruneInterval <;>
    cases hma : s.maxAge <;> simp [h, hpi, hma]

/-- `startPruningInterval` leaves `maxSize` unchanged. -/
theorem startPruning_maxSize (s : PromiseCache) :
    s.startPruningInterval.maxSize = s.maxSize := by
  unfold PromiseCache.startPruningInterval
  by_cases h : s.pruningIntervalId.isSome <;> cases hpi : s.pruneInterval <;>
    cases hma : s.maxAge <;> simp [h, hpi, hma]

/-- `startPruningInterval` leaves `size` unchanged. -/
theorem startPruning_size (s : PromiseCache) :
    s.startPruningInterval.size = s.size := by
  unfold PromiseCache.startPruningInterval
  by_cases h : s.pruningIntervalId.isSome <;> cases hpi : s.pruneInterval <;>
    cases hma : s.maxAge <;> simp [h, hpi, hma]

/-- `startPruningInterval` leaves the LRU list unchanged. -/
theorem startPruning_lruList (s : PromiseCache) :
    s.startPruningInterval.lruList = s.lruList := by
  unfold PromiseCache.startPruningInterval
  by_cases h : s.pruningIntervalId.isSome <;> cases hpi : s.pruneInterval <;>
    cases hma : s.maxAge <;> simp [h, hpi, hma]

/-- `startPruningInterval` leaves `nextId` unchanged. -/
theorem startPruning_nextId (s : PromiseCache) :
    s.startPruningInterval.nextId = s.nextId := by
  unfold PromiseCache.startPruningInterval
  by_cases h : s.pruningIntervalId.isSome <;> cases hpi : s.pruneInterval <;>
    cases hma : s.maxAge <;> simp [h, hpi, hma]

theorem getLast?_cons_of_ne_nil (a : CacheEntry) (L : List CacheEntry) (h : L ≠ []) :
    (a :: L).getLast? = L.getLast? := by
  cases L with
  | nil => exact absurd rfl h
  | cons b t => exact List.getLast?_cons_cons

/-- On a miss (no entry at all under the key), `get` with a callable setter
is `addEntry` on the lazily-initialized state. -/
theorem get_miss (s : PromiseCache) (now : Int) (k : String) (res : SetterResult)
    (hmiss : assocGet s.cacheList k = none) :
    s.get now k (.callable res) = (s.lazyInitCache.lazyInitLru).addEntry now k res := by
  have hc := (lazyInit_spec s).1
  have hcl : (s.lazyInitCache.lazyInitLru).cacheList = s.cacheList := by
    simp [PromiseCache.cacheList, hc]
  unfold PromiseCache.get
  dsimp only
  rw [hcl, hmiss]

/-- On an unexpired hit, `get` returns the stored promise without invoking
the setter. -/
theorem get_hit (s : PromiseCache) (now : Int) (k : String) (e : CacheEntry)
    (res : SetterResult)
    (hg : assocGet s.cacheList k = some e)
    (hexp : e.isExpired s.maxAge now = false) :
    (s.get now k (.callable res)).result = .ok e.getPromise ∧
    (s.get now k (.callable res)).setterInvoked = false := by
  obtain ⟨hc, hma, -, -, -, -, -⟩ := lazyInit_spec s
  have hcl : (s.lazyInitCache.lazyInitLru).cacheList = s.cacheList := by
    simp [PromiseCache.cacheList, hc]
  unfold PromiseCache.get
  dsimp only
  rw [hcl, hg, hma]
  dsimp only
  rw [hexp]
  simp

/-- Behaviour of `addEntry` with a then-able setter result on a state whose
bookkeeping is consistent: it returns the setter's promise, reports the
setter invoked, stores a fresh entry under the key (the possible LRU
eviction removes a different key), and leaves `maxAge` unchanged. -/
theorem addEntry_insert_lookup (s2 : PromiseCache) (t0 : Int) (k : String) (pid : Nat)
    (m2 : List (String × CacheEntry))
    (hc2 : s2.cache = some m2)
    (hmiss : assocGet m2 k = none)
    (hkeys : ∀ p ∈ m2, (Prod.snd p).getKey = p.1)
    (hms : 1 ≤ s2.maxSize.getD 1)
    (hsz : s2.size = (m2.length : Int))
    (hlrulen : s2.maxSize.isSome = true → s2.lruEntries.length = m2.length)
    (hlruKeys : ∀ e ∈ s2.lruEntries, (assocGet m2 e.key).isSome = true)
    (hlruSome : s2.maxSize.isSome = true → s2.lruList.isSome = true) :
    (s2.addEntry t0 k (.thenable pid)).result = .ok pid ∧
    (s2.addEntry t0 k (.thenable pid)).setterInvoked = true ∧
    assocGet (s2.addEntry t0 k (.thenable pid)).state.cacheList k
      = some ⟨k, pid, t0, s2.nextId⟩ ∧
    (s2.addEntry t0 k (.thenable pid)).state.maxAge = s2.maxAge := by
  have hcl2 : s2.cacheList = m2 := by simp [PromiseCache.cacheList, hc2]
  suffices h : assocGet (s2.addEntry t0 k (.thenable pid)).state.cacheList k
      = some ⟨k, pid, t0, s2.nextId⟩ ∧
      (s2.addEntry t0 k (.thenable pid)).state.maxAge = s2.maxAge by
    exact ⟨rfl, rfl, h.1, h.2⟩
  unfold PromiseCache.addEntry
  dsimp only
  rw [hcl2]
  cases hl : s2.lruList with
  | none =>
    have hmsn : s2.maxSize = none := by
      cases hmm : s2.maxSize with
      | none => rfl
      | some n => exact absurd (hlruSome (by simp [hmm])) (by simp [hl])
    simp [hl, hmsn, startPruning_cache, startPruning_maxSize, startPruning_maxAge,
      PromiseCache.cacheList, assocGet_assocSet_self]
  | some l =>
    simp only [hl]
    cases hms2 : s2.maxSize with
    | none =>
      simp [startPruning_cache, startPruning_maxSize, startPruning_maxAge,
        PromiseCache.cacheList, assocGet_assocSet_self]
    | some n =>
      simp only [startPruning_cache, startPruning_maxSize, startPruning_maxAge,
        startPruning_size, startPruning_lruList, startPruning_nextId]
      by_cases hev : s2.size + 1 > n
      · -- the insertion exceeds maxSize: the LRU node's key is removed
        have hn1 : 1 ≤ n := by simpa [hms2] using hms
        have hm2len : 1 ≤ (m2.length : Int) := by omega
        have hlen : l.toList.length = m2.length := by
          have := hlrulen (by simp [hms2])
          simpa [PromiseCache.lruEntries, hl] using this
        have hne : l.toList ≠ [] := by
          intro hemp
          rw [hemp] at hlen
          simp at hlen
          omega
        have hgl : (l.pushMru ⟨k, pid, t0, s2.nextId⟩).getLru
            = some (l.toList.getLast hne) := by
          unfold LruList.getLru LruList.pushMru
          dsimp only
          rw [getLast?_cons_of_ne_nil _ _ hne]
          exact List.getLast?_eq_getLast_of_ne_nil hne
        have heLmem : l.toList.getLast hne ∈ l.toList := List.getLast_mem hne
        have hiS : (assocGet m2 (l.toList.getLast hne).key).isSome = true :=
          hlruKeys _ (by simp [PromiseCache.lruEntries, hl, heLmem])
        have hkne : (l.toList.getLast hne).key ≠ k := by
          intro heq
          rw [heq, hmiss] at hiS
          simp at hiS
        obtain ⟨e2, he2⟩ := Option.isSome_iff_exists.mp hiS
        have he2key : e2.getKey = (l.toList.getLast hne).key :=
          hkeys ((l.toList.getLast hne).key, e2) (assocGet_mem _ _ _ he2)
        have hsz1 : ¬ (s2.size + 1 = 1) := by
          rw [hsz]; omega
        rw [if_pos hev, hgl]
        dsimp only
        unfold PromiseCache.remove
        rw [startPruning_cache]
        dsimp only
        simp only [CacheEntry.getKey]
        rw [assocGet_assocSet_ne m2 k (l.toList.getLast hne).key _ (Ne.symm hkne), he2]
        dsimp only
        unfold PromiseCache.removeEntry
        rw [startPruning_size]
        dsimp only
        rw [if_neg hsz1]
        constructor
        · simp only [startPruning_cache, PromiseCache.cacheList, Option.map_some',
            Option.getD_some, he2key]
          rw [assocGet_assocDelete_ne _ _ _ hkne]
          exact assocGet_assocSet_self m2 k _
        · simp only [startPruning_maxAge]
      · simp [hev, startPruning_cache, startPruning_maxAge, PromiseCache.cacheList,
          assocGet_assocSet_self]

theorem assocGet_append_left (m m2 : List (String × CacheEntry)) (k : String)
    (e : CacheEntry) (h : assocGet m k = some e) :
    assocGet (m ++ m2) k = some e := by
  induction m with
  | nil => simp [assocGet] at h
  | cons p rest ih =>
    obtain ⟨k', e'⟩ := p
    by_cases h' : k' = k
    · simp [assocGet, h'] at h
      simp [assocGet, h', h]
    · simp [assocGet, h'] at h
      simp [assocGet, h', ih h]

theorem assocGet_append_right (m m2 : List (String × CacheEntry)) (k : String)
    (h : assocGet m k = none) : assocGet (m ++ m2) k = assocGet m2 k := by
  induction m with
  | nil => simp
  | cons p rest ih =>
    obtain ⟨k', e'⟩ := p
    by_cases h' : k' = k
    · simp [assocGet, h'] at h
    · simp [assocGet, h'] at h
      simp [assocGet, h', ih h]

theorem assocSet_append_of_none (m : List (String × CacheEntry)) (k : String)
    (e : CacheEntry) (h : assocGet m k = none) :
    assocSet m k e = m ++ [(k, e)] := by
  induction m with
  | nil => simp [assocSet]
  | cons p rest ih =>
    obtain ⟨k', e'⟩ := p
    by_cases h' : k' = k
    · simp [assocGet, h'] at h
    · simp [assocGet, h'] at h
      simp [assocSet, h', ih h]

theorem mk_keys (ks : List String) (i : Nat) :
    (mkEntries ks i).map Prod.fst = ks := by
  induction ks generalizing i with
  | nil => simp [mkEntries]
  | cons k rest ih => simp [mkEntries, ih]

theorem mk_length (ks : List String) (i : Nat) :
    (mkEntries ks i).length = ks.length := by
  induction ks generalizing i with
  | nil => simp [mkEntries]
  | cons k rest ih => simp [mkEntries, ih]

theorem mk_snd_key (ks : List String) (i : Nat) :
    ∀ p ∈ mkEntries ks i, (Prod.snd p).getKey = p.1 := by
  induction ks generalizing i with
  | nil => simp [mkEntries]
  | cons k rest ih =>
    intro p hp
    rcases List.mem_cons.mp hp with h0 | h0
    · rw [h0]
      rfl
    · exact ih (i + 1) p h0

theorem mk_assocGet_not_mem (ks : List String) (i : Nat) (k : String)
    (h : k ∉ ks) : assocGet (mkEntries ks i) k = none := by
  induction ks generalizing i with
  | nil => simp [mkEntries, assocGet]
  | cons k0 rest ih =>
    have h0 : k0 ≠ k := fun he => h (by rw [he]; exact List.mem_cons_self _ _)
    have h1 : k ∉ rest := fun he => h (List.mem_cons_of_mem _ he)
    simp [mkEntries, assocGet, h0, ih (i + 1) h1]

theorem mk_assocGet_of_mem (ks : List String) (i : Nat) (kj : String)
    (ej : CacheEntry) (hnd : ks.Nodup) (h : (kj, ej) ∈ mkEntries ks i) :
    assocGet (mkEntries ks i) kj = some ej := by
  induction ks generalizing i with
  | nil => simp [mkEntries] at h
  | cons k0 rest ih =>
    rcases List.mem_cons.mp h with h0 | h0
    · injection h0 with hk he
      subst hk
      subst he
      simp [mkEntries, assocGet]
    · have hk0 : k0 ≠ kj := by
        intro he
        have : kj ∈ (mkEntries rest (i + 1)).map Prod.fst :=
          List.mem_map.mpr ⟨(kj, ej), h0, rfl⟩
        rw [mk_keys] at this
        exact (List.nodup_cons.mp hnd).1 (he ▸ this)
      simp [mkEntries, assocGet, hk0, ih (i + 1) (List.nodup_cons.mp hnd).2 h0]

theorem mk_ids (ks : List String) (i : Nat) :
    (mkEntries ks i).map (fun p => (Prod.snd p).entryId) = List.range' i ks.length := by
  induction ks generalizing i with
  | nil => simp [mkEntries]
  | cons k rest ih => simp [mkEntries, ih, List.range'_succ]

theorem filter_id_ne_nonempty (L : List CacheEntry) (c : Nat)
    (hnd : (L.map (fun x => x.entryId)).Nodup) (hlen : 2 ≤ L.length) :
    L.filter (fun x => x.entryId != c) ≠ [] := by
  intro hnil
  have hall := List.filter_eq_nil_iff.mp hnil
  match L, hlen with
  | x :: y :: t, _ =>
    have hx : x.entryId = c := by
      have := hall x (by simp)
      simpa using this
    have hy : y.entryId = c := by
      have := hall y (by simp)
      simpa using this
    simp only [List.map_cons, List.nodup_cons, List.mem_cons] at hnd
    exact hnd.1 (Or.inl (by rw [hx, hy]))

/-- The lazy initializations are the identity on a state whose map and LRU
list already exist. -/
theorem lazy_noop (s : PromiseCache) (hc : s.cache.isSome = true)
    (hl : s.lruList.isNone = false) : s.lazyInitCache.lazyInitLru = s := by
  unfold PromiseCache.lazyInitCache PromiseCache.lazyInitLru
  simp [hc, hl]

/-- `get` depends on the incoming state only through the lazily-initialized
state. -/
theorem get_congr_lazy (s t : PromiseCache) (now : Int) (k : String)
    (res : SetterResult)
    (h : s.lazyInitCache.lazyInitLru = t.lazyInitCache.lazyInitLru) :
    s.get now k (.callable res) = t.get now k (.callable res) := by
  unfold PromiseCache.get
  rw [h]

/-- Inserting a fresh key into a consistent mid-insertion state (with room
under `maxSize`) appends the entry to the map, pushes it as MRU, and bumps
`size` and the allocation counter. -/
theorem get_midState_fresh (N : Int) (m : List (String × CacheEntry)) (nid : Nat)
    (k : String) (hfresh : assocGet m k = none)
    (hfit : (m.length : Int) + 1 ≤ N) :
    (midState N m nid).get 0 k (.callable (.thenable 0)) =
      ⟨.ok 0, midState N (m ++ [(k, ⟨k, 0, 0, nid⟩)]) (nid + 1), true⟩ := by
  have hlazy : (midState N m nid).lazyInitCache.lazyInitLru = midState N m nid :=
    lazy_noop _ (by simp [midState]) (by simp [midState])
  unfold PromiseCache.get
  dsimp only
  rw [hlazy]
  have hcl : (midState N m nid).cacheList = m := by simp [midState, PromiseCache.cacheList]
  rw [hcl, hfresh]
  unfold PromiseCache.addEntry
  dsimp only
  rw [hcl]
  rw [assocSet_append_of_none m k _ hfresh]
  simp only [midState]
  simp only [PromiseCache.startPruningInterval]
  have hnev : ¬ ((m.length : Int) + 1 > N) := not_lt.mpr hfit
  simp [hnev, LruList.pushMru, midState, GetOutcome.mk.injEq, PromiseCache.mk.injEq]

/-- Inserting a block of distinct fresh keys (with room under `maxSize`)
appends their entries in order. -/
theorem insertAll_midState (N : Int) (keys : List String) :
    ∀ (m : List (String × CacheEntry)) (nid : Nat),
      keys.Nodup → (∀ k2 ∈ keys, assocGet m k2 = none) →
      ((m.length : Int) + (keys.length : Int) ≤ N) →
      insertAll (midState N m nid) keys
        = midState N (m ++ mkEntries keys nid) (nid + keys.length) := by
  induction keys with
  | nil =>
    intro m nid _ _ _
    simp [insertAll, mkEntries]
  | cons k rest ih =>
    intro m nid hnd hfresh hfit
    rw [insertAll]
    rw [get_midState_fresh N m nid k (hfresh k (by simp)) (by simp at hfit ⊢; omega)]
    dsimp only
    rw [ih (m ++ [(k, (⟨k, 0, 0, nid⟩ : CacheEntry))]) (nid + 1)
        (List.nodup_cons.mp hnd).2
        (by
          intro k2 hk2
          rw [assocGet_append_right m _ k2 (hfresh k2 (List.mem_cons_of_mem _ hk2))]
          have hne : k ≠ k2 := fun he => (List.nodup_cons.mp hnd).1 (he ▸ hk2)
          simp [assocGet, hne])
        (by
          simp at hfit ⊢
          omega)]
    have hplus : nid + 1 + rest.length = nid + (k :: rest).length := by
      simp
      omega
    rw [hplus]
    congr 1
    simp [mkEntries]

/-- Full characterization of an inserting `get` that triggers an LRU
eviction: the final map is the inserted map with the LRU node's key
deleted. -/
theorem get_evict_state (s : PromiseCache) (m : List (String × CacheEntry))
    (lv : List CacheEntry) (n : Int) (k : String) (now : Int) (pid : Nat)
    (eL e2 : CacheEntry)
    (hc : s.cache = some m) (hl : s.lruList = some ⟨lv⟩) (hms : s.maxSize = some n)
    (hfresh : assocGet m k = none)
    (hev : s.size + 1 > n)
    (hsz1 : ¬ (s.size + 1 = 1))
    (hlast : lv.getLast? = some eL)
    (he2 : assocGet m eL.key = some e2)
    (he2k : e2.getKey = eL.key)
    (hkne : eL.key ≠ k) :
    (s.get now k (.callable (.thenable pid))).state.cache
      = some (assocDelete (assocSet m k ⟨k, pid, now, s.nextId⟩) eL.key) ∧
    (s.get now k (.callable (.thenable pid))).state.maxAge = s.maxAge ∧
    (s.get now k (.callable (.thenable pid))).state.size = s.size ∧
    (s.get now k (.callable (.thenable pid))).setterInvoked = true := by
  have hlazy : s.lazyInitCache.lazyInitLru = s :=
    lazy_noop s (by simp [hc]) (by simp [hl])
  have hcl : s.cacheList = m := by simp [PromiseCache.cacheList, hc]
  have hlvne : lv ≠ [] := by
    intro hemp
    rw [hemp] at hlast
    simp at hlast
  unfold PromiseCache.get
  dsimp only
  rw [hlazy, hcl, hfresh]
  unfold PromiseCache.addEntry
  dsimp only
  rw [hcl, hl]
  dsimp only
  simp only [startPruning_cache, startPruning_maxSize, startPruning_maxAge,
    startPruning_size, startPruning_lruList, startPruning_nextId]
  rw [hms]
  dsimp only
  rw [if_pos hev]
  have hglru : (LruList.pushMru ⟨lv⟩ (⟨k, pid, now, s.nextId⟩ : CacheEntry)).getLru
      = some eL := by
    unfold LruList.getLru LruList.pushMru
    dsimp only
    rw [getLast?_cons_of_ne_nil _ _ hlvne, hlast]
  rw [hglru]
  dsimp only
  unfold PromiseCache.remove
  rw [startPruning_cache]
  dsimp only
  simp only [CacheEntry.getKey]
  rw [assocGet_assocSet_ne m k eL.key _ (Ne.symm hkne), he2]
  dsimp only
  unfold PromiseCache.removeEntry
  rw [startPruning_size]
  dsimp only
  rw [if_neg hsz1]
  refine ⟨?_, ?_, ?_, trivial⟩
  · simp only [startPruning_cache, Option.map_some', he2k]
  · simp only [startPruning_maxAge]
  · simp only [startPruning_size]
    omega

/-- A `get` on a key present in a `maxAge = null` mid-insertion state is a
hit: it returns the stored promise, invokes no setter, and only promotes
the entry to MRU. -/
theorem get_midState_hit (N : Int) (m : List (String × CacheEntry)) (nid : Nat)
    (ki : String) (ei : CacheEntry) (pid2 : Nat)
    (hg : assocGet m ki = some ei) :
    (midState N m nid).get 0 ki (.callable (.thenable pid2)) =
      ⟨.ok ei.getPromise,
       { midState N m nid with
         lruList := some (LruList.touch ⟨(m.map Prod.snd).reverse⟩ ei) },
       false⟩ := by
  have hlazy : (midState N m nid).lazyInitCache.lazyInitLru = midState N m nid :=
    lazy_noop _ (by simp [midState]) (by simp [midState])
  have hcl : (midState N m nid).cacheList = m := by simp [midState, PromiseCache.cacheList]
  have hma : (midState N m nid).maxAge = none := by simp [midState]
  have hlru : (midState N m nid).lruList = some ⟨(m.map Prod.snd).reverse⟩ := by
    simp [midState]
  unfold PromiseCache.get
  dsimp only
  rw [hlazy, hcl, hg]
  dsimp only
  rw [hma]
  simp only [CacheEntry.isExpired]
  rw [hlru]
  simp [midState]

/-- `has` on a `maxAge = null` cache is map membership. -/
theorem has_of_cache (s : PromiseCache) (m : List (String × CacheEntry)) (x : String)
    (hc : s.cache = some m) (hma : s.maxAge = none) :
    s.has 0 x = (assocGet m x).isSome := by
  unfold PromiseCache.has
  rw [hc]
  cases hg : assocGet m x <;> simp [hg, hma, CacheEntry.isExpired]

/-- Inserting the distinct keys `k1 :: rest` into a fresh cache configured
with `maxSize` equal to the number of keys produces the canonical
mid-insertion state. -/
theorem insertAll_lruInit (k1 : String) (rest : List String)
    (hnd : (k1 :: rest).Nodup) :
    insertAll (lruInit ((k1 :: rest).length : Int)) (k1 :: rest)
      = midState ((k1 :: rest).length : Int) (mkEntries (k1 :: rest) 0)
          (k1 :: rest).length := by
  have hinitlazy : (lruInit ((k1 :: rest).length : Int)).lazyInitCache.lazyInitLru
      = (midState ((k1 :: rest).length : Int) [] 0).lazyInitCache.lazyInitLru := by
    simp [lruInit, midState, PromiseCache.lazyInitCache, PromiseCache.lazyInitLru]
  have h1 : insertAll (lruInit ((k1 :: rest).length : Int)) (k1 :: rest)
      = insertAll (midState ((k1 :: rest).length : Int) [] 0) (k1 :: rest) := by
    rw [insertAll, insertAll, get_congr_lazy _ _ _ _ _ hinitlazy]
  rw [h1, insertAll_midState _ (k1 :: rest) [] 0 hnd
      (by intro x hx; simp [assocGet]) (by simp)]
  simp

/-- Part 1 of the LRU eviction property: with `maxSize = N` and `N` distinct
keys inserted, inserting a fresh `(N+1)`-th key evicts exactly the
first-inserted key. -/
theorem lruPart1 (k1 : String) (rest : List String) (knew : String)
    (hnd : (k1 :: rest).Nodup) (hknew : knew ∉ k1 :: rest) :
    (((insertAll (lruInit ((k1 :: rest).length : Int)) (k1 :: rest)).get 0 knew
        (.callable (.thenable 0))).state.has 0 k1 = false) ∧
    (∀ k2 ∈ rest, ((insertAll (lruInit ((k1 :: rest).length : Int)) (k1 :: rest)).get
        0 knew (.callable (.thenable 0))).state.has 0 k2 = true) ∧
    (((insertAll (lruInit ((k1 :: rest).length : Int)) (k1 :: rest)).get 0 knew
        (.callable (.thenable 0))).state.has 0 knew = true) := by
  rw [insertAll_lruInit k1 rest hnd]
  have hk1rest : k1 ∉ rest := (List.nodup_cons.mp hnd).1
  have hndrest : rest.Nodup := (List.nodup_cons.mp hnd).2
  have hknew1 : knew ≠ k1 := fun he => hknew (he ▸ List.mem_cons_self _ _)
  have hknewrest : knew ∉ rest := fun he => hknew (List.mem_cons_of_mem _ he)
  have hfresh : assocGet (mkEntries (k1 :: rest) 0) knew = none :=
    mk_assocGet_not_mem _ _ _ hknew
  have hmk1 : mkEntries (k1 :: rest) 0
      = (k1, (⟨k1, 0, 0, 0⟩ : CacheEntry)) :: mkEntries rest 1 := rfl
  have hlast1 : (((mkEntries (k1 :: rest) 0).map Prod.snd).reverse).getLast?
      = some (⟨k1, 0, 0, 0⟩ : CacheEntry) := by
    rw [List.getLast?_reverse, hmk1]
    simp
  have he2 : assocGet (mkEntries (k1 :: rest) 0) (CacheEntry.key ⟨k1, 0, 0, 0⟩)
      = some (⟨k1, 0, 0, 0⟩ : CacheEntry) := by
    rw [hmk1]
    simp [assocGet]
  have hsz : (midState ((k1 :: rest).length : Int) (mkEntries (k1 :: rest) 0)
      (k1 :: rest).length).size = ((k1 :: rest).length : Int) := by
    simp [midState, mk_length]
  have hevict := get_evict_state
    (midState ((k1 :: rest).length : Int) (mkEntries (k1 :: rest) 0) (k1 :: rest).length)
    (mkEntries (k1 :: rest) 0) (((mkEntries (k1 :: rest) 0).map Prod.snd).reverse)
    ((k1 :: rest).length : Int) knew 0 0 ⟨k1, 0, 0, 0⟩ ⟨k1, 0, 0, 0⟩
    (by simp [midState]) (by simp [midState]) (by simp [midState])
    hfresh
    (by rw [hsz]; omega)
    (by rw [hsz]; simp; omega)
    hlast1 he2 rfl (fun he => hknew1 he.symm)
  obtain ⟨hcf, hmaf, -, -⟩ := hevict
  have hmanone : (midState ((k1 :: rest).length : Int) (mkEntries (k1 :: rest) 0)
      (k1 :: rest).length).maxAge = none := by simp [midState]
  rw [hmanone] at hmaf
  have hnid : (midState ((k1 :: rest).length : Int) (mkEntries (k1 :: rest) 0)
      (k1 :: rest).length).nextId = (k1 :: rest).length := by simp [midState]
  rw [hnid] at hcf
  rw [assocSet_append_of_none _ _ _ hfresh] at hcf
  have hdel : assocDelete ((mkEntries (k1 :: rest) 0)
        ++ [(knew, (⟨knew, 0, 0, (k1 :: rest).length⟩ : CacheEntry))])
        (CacheEntry.key ⟨k1, 0, 0, 0⟩)
      = mkEntries rest 1 ++ [(knew, ⟨knew, 0, 0, (k1 :: rest).length⟩)] := by
    rw [hmk1]
    simp [assocDelete]
  rw [hdel] at hcf
  refine ⟨?_, ?_, ?_⟩
  · rw [has_of_cache _ _ _ hcf hmaf]
    rw [assocGet_append_right _ _ _ (mk_assocGet_not_mem rest 1 k1 hk1rest)]
    simp [assocGet, hknew1]
  · intro k2 hk2
    rw [has_of_cache _ _ _ hcf hmaf]
    have hk2m : k2 ∈ (mkEntries rest 1).map Prod.fst := by rw [mk_keys]; exact hk2
    obtain ⟨p, hp, hpfst⟩ := List.mem_map.mp hk2m
    obtain ⟨pk, pe⟩ := p
    have hpk : pk = k2 := hpfst
    have hp2 : (k2, pe) ∈ mkEntries rest 1 := by
      rw [← hpk]
      exact hp
    rw [assocGet_append_left _ _ _ _ (mk_assocGet_of_mem rest 1 k2 pe hndrest hp2)]
    simp
  · rw [has_of_cache _ _ _ hcf hmaf]
    rw [assocGet_append_right _ _ _ (mk_assocGet_not_mem rest 1 knew hknewrest)]
    simp [assocGet]

/-- Part 2 of the LRU eviction property: with `maxSize = N ≥ 2`, hitting a
key via `get` after the `N` insertions and before the `(N+1)`-th insertion
protects that key: the eviction triggered by inserting the fresh key
removes some other key, and the hit key (and the fresh key) remain. -/
theorem lruPart2 (k1 : String) (rest : List String) (knew ki : String)
    (hnd : (k1 :: rest).Nodup) (hknew : knew ∉ k1 :: rest)
    (hrest : rest ≠ []) (hki : ki ∈ k1 :: rest) :
    (((insertAll (lruInit ((k1 :: rest).length : Int)) (k1 :: rest)).get 0 ki
        (.callable (.thenable 7))).setterInvoked = false) ∧
    ((((insertAll (lruInit ((k1 :: rest).length : Int)) (k1 :: rest)).get 0 ki
        (.callable (.thenable 7))).state.get 0 knew
        (.callable (.thenable 0))).state.has 0 ki = true) ∧
    ((((insertAll (lruInit ((k1 :: rest).length : Int)) (k1 :: rest)).get 0 ki
        (.callable (.thenable 7))).state.get 0 knew
        (.callable (.thenable 0))).state.has 0 knew = true) := by
  rw [insertAll_lruInit k1 rest hnd]
  -- the entry stored under the hit key
  have hkim : ki ∈ (mkEntries (k1 :: rest) 0).map Prod.fst := by
    rw [mk_keys]
    exact hki
  obtain ⟨p, hp, hpfst⟩ := List.mem_map.mp hkim
  obtain ⟨pk, ei⟩ := p
  have hpk : pk = ki := hpfst
  have hpi : (ki, ei) ∈ mkEntries (k1 :: rest) 0 := by
    rw [← hpk]
    exact hp
  have hgi : assocGet (mkEntries (k1 :: rest) 0) ki = some ei :=
    mk_assocGet_of_mem _ _ _ _ hnd hpi
  rw [get_midState_hit ((k1 :: rest).length : Int) (mkEntries (k1 :: rest) 0)
    (k1 :: rest).length ki ei 7 hgi]
  refine ⟨rfl, ?_⟩
  -- the LRU list after the touch
  have htouch : LruList.touch ⟨((mkEntries (k1 :: rest) 0).map Prod.snd).reverse⟩ ei
      = ⟨ei :: (((mkEntries (k1 :: rest) 0).map Prod.snd).reverse).filter
            (fun x => x.entryId != ei.entryId)⟩ := rfl
  -- the filtered tail is nonempty because ids are distinct and there are ≥ 2
  have hmapids : ((((mkEntries (k1 :: rest) 0).map Prod.snd).reverse).map
      (fun x => x.entryId)) = (List.range' 0 (k1 :: rest).length).reverse := by
    rw [List.map_reverse, List.map_map]
    have hcomp : ((fun x : CacheEntry => x.entryId) ∘ Prod.snd)
        = fun p : String × CacheEntry => (Prod.snd p).entryId := rfl
    rw [hcomp, mk_ids]
  have hndids : ((((mkEntries (k1 :: rest) 0).map Prod.snd).reverse).map
      (fun x => x.entryId)).Nodup := by
    rw [hmapids]
    exact List.nodup_reverse.mpr (List.nodup_range' 0 _)
  have hlen2 : 2 ≤ (((mkEntries (k1 :: rest) 0).map Prod.snd).reverse).length := by
    simp [mk_length]
    have : 0 < rest.length := List.length_pos.mpr hrest
    omega
  have hLne : (((mkEntries (k1 :: rest) 0).map Prod.snd).reverse).filter
      (fun x => x.entryId != ei.entryId) ≠ [] :=
    filter_id_ne_nonempty _ _ hndids hlen2
  -- the evicted node
  have hej : ((((mkEntries (k1 :: rest) 0).map Prod.snd).reverse).filter
        (fun x => x.entryId != ei.entryId)).getLast?
      = some (((((mkEntries (k1 :: rest) 0).map Prod.snd).reverse).filter
          (fun x => x.entryId != ei.entryId)).getLast hLne) :=
    List.getLast?_eq_getLast_of_ne_nil hLne
  have hejmem := List.getLast_mem hLne
  have hejspec := List.mem_filter.mp hejmem
  have hidne : (((((mkEntries (k1 :: rest) 0).map Prod.snd).reverse).filter
      (fun x => x.entryId != ei.entryId)).getLast hLne).entryId ≠ ei.entryId := by
    have := hejspec.2
    simpa using this
  have hejM : ((((mkEntries (k1 :: rest) 0).map Prod.snd).reverse).filter
      (fun x => x.entryId != ei.entryId)).getLast hLne
      ∈ (mkEntries (k1 :: rest) 0).map Prod.snd := by
    have := hejspec.1
    rwa [List.mem_reverse] at this
  obtain ⟨q, hq, hqsnd⟩ := List.mem_map.mp hejM
  obtain ⟨kj, ej0⟩ := q
  have hej0 : ej0 = ((((mkEntries (k1 :: rest) 0).map Prod.snd).reverse).filter
      (fun x => x.entryId != ei.entryId)).getLast hLne := hqsnd
  have hqkey : (((((mkEntries (k1 :: rest) 0).map Prod.snd).reverse).filter
      (fun x => x.entryId != ei.entryId)).getLast hLne).key = kj := by
    rw [← hej0]
    exact mk_snd_key _ _ _ hq
  have hqmem : (kj, ((((mkEntries (k1 :: rest) 0).map Prod.snd).reverse).filter
      (fun x => x.entryId != ei.entryId)).getLast hLne) ∈ mkEntries (k1 :: rest) 0 := by
    rw [← hej0]
    exact hq
  have hgj : assocGet (mkEntries (k1 :: rest) 0)
      (((((mkEntries (k1 :: rest) 0).map Prod.snd).reverse).filter
          (fun x => x.entryId != ei.entryId)).getLast hLne).key
      = some (((((mkEntries (k1 :: rest) 0).map Prod.snd).reverse).filter
          (fun x => x.entryId != ei.entryId)).getLast hLne) := by
    rw [hqkey]
    exact mk_assocGet_of_mem _ _ _ _ hnd hqmem
  have hkjki : (((((mkEntries (k1 :: rest) 0).map Prod.snd).reverse).filter
      (fun x => x.entryId != ei.entryId)).getLast hLne).key ≠ ki := by
    intro he
    rw [he, hgi] at hgj
    exact hidne (by rw [← Option.some_inj.mp hgj])
  have hkjknew : (((((mkEntries (k1 :: rest) 0).map Prod.snd).reverse).filter
      (fun x => x.entryId != ei.entryId)).getLast hLne).key ≠ knew := by
    intro he
    apply hknew
    rw [← he, hqkey]
    have : kj ∈ (mkEntries (k1 :: rest) 0).map Prod.fst :=
      List.mem_map.mpr ⟨(kj, ej0), hq, rfl⟩
    rwa [mk_keys] at this
  have hfresh : assocGet (mkEntries (k1 :: rest) 0) knew = none :=
    mk_assocGet_not_mem _ _ _ hknew
  have hevict := get_evict_state
    { midState ((k1 :: rest).length : Int) (mkEntries (k1 :: rest) 0)
        (k1 :: rest).length with
      lruList := some (LruList.touch
        ⟨((mkEntries (k1 :: rest) 0).map Prod.snd).reverse⟩ ei) }
    (mkEntries (k1 :: rest) 0)
    (ei :: (((mkEntries (k1 :: rest) 0).map Prod.snd).reverse).filter
        (fun x => x.entryId != ei.entryId))
    ((k1 :: rest).length : Int) knew 0 0
    (((((mkEntries (k1 :: rest) 0).map Prod.snd).reverse).filter
        (fun x => x.entryId != ei.entryId)).getLast hLne)
    (((((mkEntries (k1 :: rest) 0).map Prod.snd).reverse).filter
        (fun x => x.entryId != ei.entryId)).getLast hLne)
    (by simp [midState]) (by simp [htouch]) (by simp [midState])
    hfresh
    (by simp [midState, mk_length])
    (by simp [midState, mk_length]; omega)
    (by rw [getLast?_cons_of_ne_nil _ _ hLne]; exact hej)
    hgj (by rfl) hkjknew
  obtain ⟨hcf, hmaf, -, -⟩ := hevict
  have hmanone : ({ midState ((k1 :: rest).length : Int) (mkEntries (k1 :: rest) 0)
      (k1 :: rest).length with
      lruList := some (LruList.touch
        ⟨((mkEntries (k1 :: rest) 0).map Prod.snd).reverse⟩ ei) }
      : PromiseCache).maxAge = none := by simp [midState]
  rw [hmanone] at hmaf
  rw [assocSet_append_of_none _ _ _ hfresh] at hcf
  constructor
  · rw [has_of_cache _ _ _ hcf hmaf]
    rw [assocGet_assocDelete_ne _ _ _ hkjki]
    rw [assocGet_append_left _ _ _ _ hgi]
    simp
  · rw [has_of_cache _ _ _ hcf hmaf]
    rw [assocGet_assocDelete_ne _ _ _ hkjknew]
    rw [assocGet_append_right _ _ _ hfresh]
    simp [assocGet]

/-! ## Claim theorems -/

/-- C2 (code bug): after `get` overwrites an existing expired entry, the
`size` field is 2 while the cache map holds a single entry — `size` does
not mirror the map cardinality, contradicting the source's own
documentation of `size` ("the number of entries currently in the cache"):
`addEntry` increments `size` without accounting for the entry it
overwrote. -/
theorem claim_size_mirrors_card_bug :
    exS2.size = 2 ∧ exS2.cacheList.length = 1 := by
  constructor
  · decide
  · decide

/-- C3 (code bug): when `get` overwrites an existing expired entry for key
`a` while an LRU list is active, the old `CacheEntry` (allocation id 0) is
still linked in the LRU list afterwards, even though the map now stores the
fresh entry (allocation id 1) — the overwrite orphans the old LRU node,
since `addEntry` only pushes the new entry and never unlinks the old
one. -/
theorem claim_overwrite_orphan_bug :
    lruS2.lruEntries =
      [⟨"a", 2, 200, 1⟩, ⟨"a", 1, 0, 0⟩] ∧
    assocGet lruS2.cacheList "a" = some ⟨"a", 2, 200, 1⟩ ∧
    (⟨"a", 1, 0, 0⟩ : CacheEntry) ∉ lruS2.cacheList.map Prod.snd := by
  refine ⟨by decide, by decide, by decide⟩

/-- C9 (code bug): in the reachable state `exS2` (size 2, one map entry,
pruning interval running), `prune` at time 400 removes the last remaining
entry through the `removeEntry` path, yet the pruning interval keeps
running and `size` is left at 1 — because the overwrite in `addEntry` broke
the size accounting, `removeEntry` never sees `size === 1` and so never
reaches the `clear()` branch that stops the timer. -/
theorem claim_prune_contract_bug :
    exS2.cacheList.length = 1 ∧
    (exS2.prune 400).cacheList = [] ∧
    (exS2.prune 400).pruningIntervalId = some 1 ∧
    (exS2.prune 400).size = 1 := by
  refine ⟨by decide, by decide, by decide, by decide⟩

/-- C4 counterexample: with `maxAge = 100` and an entry for `a` inserted at
time 0, a `get` at time exactly `t0 + T = 100` is a cache hit (the stored
promise 1 is returned and the new setter is not invoked), whereas the claim
demands a miss at every `t ≥ t0 + T`: expiration in the code is strict
(`now > insertedAt + maxAge`). -/
theorem claim_expiration_boundary_cx :
    (exS1.get 100 "a" (.callable (.thenable 2))).setterInvoked = false ∧
    (exS1.get 100 "a" (.callable (.thenable 2))).result = .ok 1 := by
  exact ⟨by decide, by decide⟩

/-- C5 counterexample: with `maxSize = N = 1`, insert key `a`, hit key `a`
via `get` (a genuine cache hit: the setter is not invoked), then insert the
(N+1)-th distinct key `b`.  The evicted key is `a` — the very key that was
hit — contradicting the claim that a key hit before the (N+1)-th insertion
is not the one evicted. -/
theorem claim_lru_eviction_cx :
    ((evCfg.get 0 "a" (.callable (.thenable 0))).state.get 0 "a"
        (.callable (.thenable 9))).setterInvoked = false ∧
    evS3.has 0 "a" = false ∧
    evS3.has 0 "b" = true := by
  refine ⟨by decide, by decide, by decide⟩

/-- C8 counterexample: destroying a cache that holds one entry leaves the
`size` field untouched, so `getSize()` afterwards returns 1, not 0 as the
claim demands — `destroy` nulls the map and stops the timer but never
resets `size`. -/
theorem claim_clear_destroy_cx :
    exS1.destroy.getSize 0 = 1 ∧ exS1.destroy.getSize 0 ≠ 0 := by
  exact ⟨by decide, by decide⟩

/-- C8 as amended: `clear()` and `destroy()` are total (the source throws
nowhere in them) and idempotent, so calling either on an already-empty or
already-destroyed cache is harmless; after `clear()`, `getSize()` returns
0; after `destroy()`, `getSize()` returns the prior value of the `size`
field — which is 0 whenever the cache was empty or previously
cleared/destroyed, but not in general. -/
theorem claim_clear_destroy_amended (s : PromiseCache) (now : Int) :
    (s.clear.getSize now = 0) ∧
    (s.destroy.getSize now = s.size) ∧
    s.clear.clear = s.clear ∧
    s.destroy.destroy = s.destroy := by
  cases s with
  | mk maxSize maxAge pruneInterval cache size pid lru nid =>
    refine ⟨?_, ?_, ?_, ?_⟩ <;>
      cases pid <;>
        simp [PromiseCache.clear, PromiseCache.destroy, PromiseCache.getSize,
          PromiseCache.prune, PromiseCache.stopPruningInterval]

/-- C10: frame of `destroy` — it changes exactly the cache map reference
(to absent) and the pruning interval handle (stopped and cleared); every
other field, in particular the `size` counter and the `lruList`, keeps its
prior value, so a later `get` lazily resurrects an empty map while seeing
the stale pre-destroy `size` and LRU list. -/
theorem claim_destroy_frame (s : PromiseCache) :
    s.destroy = { s with cache := none, pruningIntervalId := none } ∧
    s.destroy.size = s.size ∧ s.destroy.lruList = s.lruList := by
  cases s with
  | mk maxSize maxAge pruneInterval cache size pid lru nid =>
    cases pid <;>
      simp [PromiseCache.destroy, PromiseCache.stopPruningInterval]

/-- C6: stale-entry guard — the rejection continuation
`removeIfEntry(key, entry)` leaves the cache unchanged whenever the entry
currently stored under `key` is not the same `CacheEntry` instance
(allocation identity) as the one created for the rejecting call; in
particular a newer entry that overwrote `key` is not removed when the older
call's promise rejects. -/
theorem claim_stale_entry_guard (s : PromiseCache) (m : List (String × CacheEntry))
    (k : String) (eOld : CacheEntry) (hm : s.cache = some m)
    (hdiff : ∀ eCur, assocGet m k = some eCur → eCur.entryId ≠ eOld.entryId) :
    s.removeIfEntry k eOld = s := by
  unfold PromiseCache.removeIfEntry
  rw [hm]
  dsimp only
  cases h : assocGet m k with
  | none => simp
  | some e =>
    have hne : e ≠ eOld := fun he => hdiff e h (by rw [he])
    simp [hne]

/-- Witness for C6: in the overwritten state `lruS2`, the rejection of the
old entry (allocation id 0) for key `a` does not remove the newer entry
(allocation id 1) — the state is unchanged. -/
theorem claim_stale_entry_guard_witness :
    lruS2.removeIfEntry "a" ⟨"a", 1, 0, 0⟩ = lruS2 := by
  refine claim_stale_entry_guard lruS2
    [("a", ⟨"a", 2, 200, 1⟩)] "a" ⟨"a", 1, 0, 0⟩ (by decide) ?_
  intro eCur h
  have he : eCur = (⟨"a", 2, 200, 1⟩ : CacheEntry) := by
    have h' := h
    simp [assocGet] at h'
    exact h'.symm
  subst he
  decide

/-- C7: `InvalidSetterResultError` atomicity — whenever `get` is issued
with a callable setter whose return value fails the then-duck-type check
and the call would actually invoke the setter (no unexpired entry exists
under the key, which is the only situation in which the setter's return
value is examined), `get` throws `InvalidSetterResultError` synchronously,
the setter having been invoked once; no entry is stored under any key and
the set of cached entries, the `size` field, the LRU list contents, and the
pruning-interval handle all keep their prior values (the only mutations
that survive the throw are the lazy creations of an empty map and an empty
LRU list). -/
theorem claim_invalid_setter_result (s : PromiseCache) (now : Int) (k : String)
    (hmiss : ∀ e, assocGet s.cacheList k = some e → e.isExpired s.maxAge now = true) :
    (s.get now k (.callable .nonThenable)).result = .error .invalidSetterResult ∧
    (s.get now k (.callable .nonThenable)).setterInvoked = true ∧
    (s.get now k (.callable .nonThenable)).state.cacheList = s.cacheList ∧
    (s.get now k (.callable .nonThenable)).state.size = s.size ∧
    (s.get now k (.callable .nonThenable)).state.lruEntries = s.lruEntries ∧
    (s.get now k (.callable .nonThenable)).state.pruningIntervalId = s.pruningIntervalId := by
  unfold PromiseCache.get PromiseCache.lazyInitCache PromiseCache.lazyInitLru PromiseCache.addEntry
  dsimp only
  cases hc : s.cache with
  | none =>
    simp only [hc, Option.isSome_none, Bool.false_eq_true, if_false, reduceIte]
    cases hl : s.lruList <;>
      cases hms : s.maxSize <;>
        simp [PromiseCache.cacheList, PromiseCache.lruEntries, hc, hl, hms, assocGet]
  | some m =>
    simp only [hc, Option.isSome_some, if_true, reduceIte]
    have hcl : s.cacheList = m := by simp [PromiseCache.cacheList, hc]
    cases hl : s.lruList with
    | some l =>
      simp only [Option.isNone_some, Bool.false_and, Bool.false_eq_true, if_false, reduceIte]
      cases hg : assocGet m k with
      | none => simp [PromiseCache.cacheList, PromiseCache.lruEntries, hc, hl, hg, hcl]
      | some ce =>
        have hexp : ce.isExpired s.maxAge now = true := by
          apply hmiss; rw [hcl]; exact hg
        simp [PromiseCache.cacheList, PromiseCache.lruEntries, hc, hl, hg, hcl, hexp]
    | none =>
      cases hms : s.maxSize with
      | none =>
        simp only [hl, hms, Option.isNone_none, Option.isSome_none, Bool.and_false,
          Bool.false_eq_true, if_false, reduceIte]
        cases hg : assocGet m k with
        | none => simp [PromiseCache.cacheList, PromiseCache.lruEntries, hc, hl, hg, hcl]
        | some ce =>
          have hexp : ce.isExpired s.maxAge now = true := by
            apply hmiss; rw [hcl]; exact hg
          simp [PromiseCache.cacheList, PromiseCache.lruEntries, hc, hl, hg, hcl, hexp]
      | some n =>
        simp only [hl, hms, Option.isNone_none, Option.isSome_some, Bool.and_true,
          if_true, reduceIte]
        cases hg : assocGet m k with
        | none => simp [PromiseCache.cacheList, PromiseCache.lruEntries, hc, hl, hg, hcl]
        | some ce =>
          have hexp : ce.isExpired s.maxAge now = true := by
            apply hmiss; rw [hcl]; exact hg
          simp [PromiseCache.cacheList, PromiseCache.lruEntries, hc, hl, hg, hcl, hexp]

/-- Witness for C7: on a fresh cache, `get('k', setter)` with a setter
returning a non-then-able value throws `InvalidSetterResultError` while
leaving entries, size, LRU contents and timer handle as before. -/
theorem claim_invalid_setter_result_witness :
    (PromiseCache.get {} 0 "k" (.callable .nonThenable)).result
        = .error .invalidSetterResult ∧
    (PromiseCache.get {} 0 "k" (.callable .nonThenable)).setterInvoked = true ∧
    (PromiseCache.get {} 0 "k" (.callable .nonThenable)).state.cacheList
        = PromiseCache.cacheList {} ∧
    (PromiseCache.get {} 0 "k" (.callable .nonThenable)).state.size
        = PromiseCache.size {} ∧
    (PromiseCache.get {} 0 "k" (.callable .nonThenable)).state.lruEntries
        = PromiseCache.lruEntries {} ∧
    (PromiseCache.get {} 0 "k" (.callable .nonThenable)).state.pruningIntervalId
        = PromiseCache.pruningIntervalId {} := by
  refine claim_invalid_setter_result {} 0 "k" ?_
  intro e h
  simp [PromiseCache.cacheList, assocGet] at h

/-- C4 as amended: with `maxAge = T` configured and an entry `e` stored
under key `k`, a `get` at any time `now ≤ insertedAt + T` is a cache hit
(returns the stored promise, does not invoke the setter) and a `get` at any
time `now > insertedAt + T` is a miss that invokes the new setter — the
boundary instant `t = t0 + T` is a hit, not a miss as originally claimed,
because expiration is strict.  Moreover `isExpired(maxAge)` is true iff
`maxAge` is non-null and `now > insertedAt + maxAge`, and always false when
`maxAge` is null. -/
theorem claim_expiration_amended (s : PromiseCache) (m : List (String × CacheEntry))
    (k : String) (e : CacheEntry) (T now : Int) (res : SetterResult)
    (hm : s.cache = some m) (he : assocGet m k = some e) (hT : s.maxAge = some T) :
    (now ≤ e.entryTime + T →
      (s.get now k (.callable res)).result = .ok e.getPromise ∧
      (s.get now k (.callable res)).setterInvoked = false) ∧
    (e.entryTime + T < now →
      (s.get now k (.callable res)).setterInvoked = true) ∧
    (∀ (e2 : CacheEntry) (a t : Int),
      e2.isExpired (some a) t = decide (e2.entryTime + a < t)) ∧
    (∀ (e2 : CacheEntry) (t : Int), e2.isExpired none t = false) := by
  refine ⟨?_, ?_, fun e2 a t => rfl, fun e2 t => rfl⟩ <;>
    · intro hnow
      unfold PromiseCache.get PromiseCache.lazyInitCache PromiseCache.lazyInitLru PromiseCache.addEntry
      dsimp only
      simp only [hm, Option.isSome_some, reduceIte]
      have hexp : e.isExpired s.maxAge now = decide (e.entryTime + T < now) := by
        rw [hT]; rfl
      cases hl : s.lruList with
      | some l =>
        simp only [hl, Option.isNone_some, Bool.false_and, Bool.false_eq_true, reduceIte]
        simp only [PromiseCache.cacheList, hm, Option.getD_some, he]
        rw [hexp]
        first
        | · simp [hnow, not_lt.mpr hnow]
        | · have hd : decide (e.entryTime + T < now) = true := by simp [hnow]
            simp only [hd, reduceIte]
            cases res <;> simp
      | none =>
        cases hms : s.maxSize with
        | none =>
          simp only [hl, hms, Option.isNone_none, Option.isSome_none, Bool.and_false,
            Bool.false_eq_true, reduceIte]
          simp only [PromiseCache.cacheList, hm, Option.getD_some, he]
          rw [hexp]
          first
          | · simp [hnow, not_lt.mpr hnow]
          | · have hd : decide (e.entryTime + T < now) = true := by simp [hnow]
              simp only [hd, reduceIte]
              cases res <;> simp
        | some n =>
          simp only [hl, hms, Option.isNone_none, Option.isSome_some, Bool.and_true,
            reduceIte]
          simp only [PromiseCache.cacheList, hm, Option.getD_some, he]
          rw [hexp]
          first
          | · simp [hnow, not_lt.mpr hnow]
          | · have hd : decide (e.entryTime + T < now) = true := by simp [hnow]
              simp only [hd, reduceIte]
              cases res <;> simp

/-- Witness for C4's amended theorem: in `exS1` (entry for `a` inserted at
time 0, `maxAge = 100`), a `get` at time 50 hits and returns the stored
promise 1 without invoking the setter, and the `isExpired` equivalences
hold. -/
theorem claim_expiration_amended_witness :
    ((50 : Int) ≤ (0 : Int) + 100 →
      (exS1.get 50 "a" (.callable (.thenable 7))).result
          = .ok (CacheEntry.getPromise ⟨"a", 1, 0, 0⟩) ∧
      (exS1.get 50 "a" (.callable (.thenable 7))).setterInvoked = false) ∧
    ((0 : Int) + 100 < 50 →
      (exS1.get 50 "a" (.callable (.thenable 7))).setterInvoked = true) ∧
    (∀ (e2 : CacheEntry) (a t : Int),
      e2.isExpired (some a) t = decide (e2.entryTime + a < t)) ∧
    (∀ (e2 : CacheEntry) (t : Int), e2.isExpired none t = false) := by
  exact claim_expiration_amended exS1 [("a", ⟨"a", 1, 0, 0⟩)] "a" ⟨"a", 1, 0, 0⟩
    100 50 (.thenable 7) (by decide) (by decide) (by decide)


/-- C1 as amended: single-flight holds from every state whose bookkeeping
is consistent — `size` matches the map cardinality, the LRU list's entry
count and keys match the map, stored entries are keyed by their map key,
and a configured `maxSize` is at least 1 (the spec's
degenerate-configuration note) — and which holds no entry under `k`: a
first `get(k, setter)` whose setter returns promise `pid` invokes the
setter and returns that promise, and a second `get(k, setter2)` issued
before the first promise settles (no rejection processed in between) and
before the entry expires returns the very same promise without invoking
its setter, so the setter is invoked exactly once across the two calls and
both receive the reference-identical asynchronous value.  The consistency
proviso cannot be dropped: the counterexample shows single-flight failing
in the reachable orphaned-LRU-node state `sfOrphan`, which violates
exactly these conditions. -/
theorem claim_single_flight (s0 : PromiseCache) (t0 t1 : Int) (k : String)
    (pid : Nat) (res2 : SetterResult)
    (hmiss : assocGet s0.cacheList k = none)
    (hkeys : ∀ p ∈ s0.cacheList, (Prod.snd p).getKey = p.1)
    (hms : 1 ≤ s0.maxSize.getD 1)
    (hsz : s0.size = (s0.cacheList.length : Int))
    (hlrulen : s0.maxSize.isSome = true → s0.lruEntries.length = s0.cacheList.length)
    (hlruKeys : ∀ e ∈ s0.lruEntries, (assocGet s0.cacheList e.key).isSome = true)
    (hexp : CacheEntry.isExpired ⟨k, pid, t0, s0.nextId⟩ s0.maxAge t1 = false) :
    (s0.get t0 k (.callable (.thenable pid))).result = .ok pid ∧
    (s0.get t0 k (.callable (.thenable pid))).setterInvoked = true ∧
    ((s0.get t0 k (.callable (.thenable pid))).state.get t1 k (.callable res2)).result
      = .ok pid ∧
    ((s0.get t0 k (.callable (.thenable pid))).state.get t1 k
      (.callable res2)).setterInvoked = false := by
  obtain ⟨hc, hma, hmsz, hszL, hnid, hlruE, hlruSome'⟩ := lazyInit_spec s0
  have hgm := get_miss s0 t0 k (.thenable pid) hmiss
  have hadd := addEntry_insert_lookup (s0.lazyInitCache.lazyInitLru) t0 k pid
    s0.cacheList hc hmiss hkeys
    (by rw [hmsz]; exact hms)
    (by rw [hszL]; exact hsz)
    (by rw [hmsz, hlruE]; exact hlrulen)
    (by rw [hlruE]; exact hlruKeys)
    (by rw [hmsz]; exact hlruSome')
  obtain ⟨hres, hinv, hlook, hmage⟩ := hadd
  rw [hnid] at hlook
  rw [hgm]
  refine ⟨hres, hinv, ?_, ?_⟩
  · exact (get_hit _ t1 k _ res2 hlook (by rw [hmage, hma]; exact hexp)).1
  · exact (get_hit _ t1 k _ res2 hlook (by rw [hmage, hma]; exact hexp)).2

/-- Witness for C1: on a fresh default cache, two `get('a', ...)` calls at
times 0 and 1 invoke the first setter once; both calls return promise 5,
and the second call's setter is not invoked. -/
theorem claim_single_flight_witness :
    (PromiseCache.get {} 0 "a" (.callable (.thenable 5))).result = .ok 5 ∧
    (PromiseCache.get {} 0 "a" (.callable (.thenable 5))).setterInvoked = true ∧
    ((PromiseCache.get {} 0 "a" (.callable (.thenable 5))).state.get 1 "a"
        (.callable (.thenable 9))).result = .ok 5 ∧
    ((PromiseCache.get {} 0 "a" (.callable (.thenable 5))).state.get 1 "a"
        (.callable (.thenable 9))).setterInvoked = false := by
  exact claim_single_flight {} 0 1 "a" 5 (.thenable 9) (by decide) (by decide)
    (by decide) (by decide) (by decide) (by decide) (by decide)

/-- C5 as amended: with `maxSize = N` (the number of inserted keys, `N ≥ 1`)
and no `maxAge`, inserting `N+1` distinct keys via `get` with no
intervening hits removes exactly the first-inserted key (all other `N` keys
remain); and provided `N ≥ 2`, a key hit via `get` before the `(N+1)`-th
insertion is not the one evicted.  (For `N = 1` the original claim fails:
the hit key is the only prior key and is necessarily evicted, see the
counterexample.) -/
theorem claim_lru_eviction_amended (k1 : String) (rest : List String)
    (knew ki : String)
    (hnd : (k1 :: rest).Nodup) (hknew : knew ∉ k1 :: rest) :
    ((((insertAll (lruInit ((k1 :: rest).length : Int)) (k1 :: rest)).get 0 knew
        (.callable (.thenable 0))).state.has 0 k1 = false) ∧
     (∀ k2 ∈ rest, ((insertAll (lruInit ((k1 :: rest).length : Int)) (k1 :: rest)).get
        0 knew (.callable (.thenable 0))).state.has 0 k2 = true) ∧
     (((insertAll (lruInit ((k1 :: rest).length : Int)) (k1 :: rest)).get 0 knew
        (.callable (.thenable 0))).state.has 0 knew = true)) ∧
    (rest ≠ [] → ki ∈ k1 :: rest →
      ((((insertAll (lruInit ((k1 :: rest).length : Int)) (k1 :: rest)).get 0 ki
          (.callable (.thenable 7))).setterInvoked = false) ∧
       ((((insertAll (lruInit ((k1 :: rest).length : Int)) (k1 :: rest)).get 0 ki
          (.callable (.thenable 7))).state.get 0 knew
          (.callable (.thenable 0))).state.has 0 ki = true) ∧
       ((((insertAll (lruInit ((k1 :: rest).length : Int)) (k1 :: rest)).get 0 ki
          (.callable (.thenable 7))).state.get 0 knew
          (.callable (.thenable 0))).state.has 0 knew = true))) :=
  ⟨lruPart1 k1 rest knew hnd hknew,
   fun hrest hki => lruPart2 k1 rest knew ki hnd hknew hrest hki⟩

/-- Witness for C5's amended theorem at `maxSize = 2`, keys `a`, `b`, new
key `c`, hit key `b`: inserting `c` evicts exactly `a`; after hitting `b`,
inserting `c` leaves `b` (and `c`) present. -/
theorem claim_lru_eviction_amended_witness :
    ((((insertAll (lruInit ((["a", "b"] : List String).length : Int)) ["a", "b"]).get
        0 "c" (.callable (.thenable 0))).state.has 0 "a" = false) ∧
     (∀ k2 ∈ (["b"] : List String), ((insertAll (lruInit ((["a", "b"] : List String).length : Int))
        ["a", "b"]).get 0 "c" (.callable (.thenable 0))).state.has 0 k2 = true) ∧
     (((insertAll (lruInit ((["a", "b"] : List String).length : Int)) ["a", "b"]).get
        0 "c" (.callable (.thenable 0))).state.has 0 "c" = true)) ∧
    ((["b"] : List String) ≠ [] → "b" ∈ (["a", "b"] : List String) →
      ((((insertAll (lruInit ((["a", "b"] : List String).length : Int)) ["a", "b"]).get
          0 "b" (.callable (.thenable 7))).setterInvoked = false) ∧
       ((((insertAll (lruInit ((["a", "b"] : List String).length : Int)) ["a", "b"]).get
          0 "b" (.callable (.thenable 7))).state.get 0 "c"
          (.callable (.thenable 0))).state.has 0 "b" = true) ∧
       ((((insertAll (lruInit ((["a", "b"] : List String).length : Int)) ["a", "b"]).get
          0 "b" (.callable (.thenable 7))).state.get 0 "c"
          (.callable (.thenable 0))).state.has 0 "c" = true))) := by
  exact claim_lru_eviction_amended "a" ["b"] "c" "b" (by decide) (by decide)

/-- C1 counterexample: the original claim quantifies over every reachable
state, and fails in `sfOrphan` — a state produced purely by public `get`
calls (insert `a` at time 0, overwrite the expired entry at time 200 with
`maxSize = 1`).  The orphaned LRU node left by the overwrite shares key
`a` with every freshly inserted entry, so the post-insert eviction removes
the entry just created: two back-to-back `get('a', ...)` calls at time
300, with no settlement and no expiry in between, each invoke their setter
and return different promise objects (3, then 4), instead of invoking the
setter exactly once and sharing one reference. -/
theorem claim_single_flight_cx :
    (sfOrphan.get 300 "a" (.callable (.thenable 3))).setterInvoked = true ∧
    (sfOrphan.get 300 "a" (.callable (.thenable 3))).result = .ok 3 ∧
    ((sfOrphan.get 300 "a" (.callable (.thenable 3))).state.get 300 "a"
        (.callable (.thenable 4))).setterInvoked = true ∧
    ((sfOrphan.get 300 "a" (.callable (.thenable 3))).state.get 300 "a"
        (.callable (.thenable 4))).result = .ok 4 ∧
    CacheEntry.isExpired ⟨"a", 3, 300, 2⟩ sfOrphan.maxAge 300 = false := by
  refine ⟨by decide, by decide, by decide, by decide, by decide⟩
